import Mathlib

/-!
Verification of the save-file marshalling core in `crawl-ref/source/tags.cc`.

The byte stream is modelled as a `List Nat` of octets.  Writers
(`marshall*`) are functions producing the list of bytes they append to the
tag buffer; readers (`unmarshall*`) consume a byte list from the front and
return the decoded value together with the remaining stream, mirroring
`tagHeader::readByte` (which returns `tagBuffer[offset++]` as an
`unsigned char`) and `tagHeader::advance`.

Machine integers are modelled as `Int`/`Nat` with explicit reduction
modulo `2 ^ width`; on a two's-complement host (the only kind the game
supports) the C bit operations `x & 0xFF`, `(x & 0xFF00) >> 8`, ... on the
low bits of an integer equal `emod`/division on the value reduced modulo
the type width, which is how they are written below.  Following the
documented format ("the marshalling sizes are 1, 2 and 4 for byte, short
and long"), `short` is 16-bit signed and `long` 32-bit signed.
-/

/-- Reinterpret the low 8 bits of a byte as a signed `char`
(two's complement), as happens in `unmarshallByte`'s `char` return. -/
def toSigned8 (n : Nat) : Int :=
  if n % 256 < 128 then (n % 256 : Int) else (n % 256 : Int) - 256

/-- Reinterpret the low 16 bits as a signed `short` (two's complement),
as happens when `unmarshallShort` assembles `(b1 << 8) | b2` into a
`short`. -/
def toSigned16 (n : Nat) : Int :=
  if n % 65536 < 32768 then (n % 65536 : Int) else (n % 65536 : Int) - 65536

/-- Reinterpret the low 32 bits as a signed 32-bit `long`
(two's complement), as happens when `unmarshallLong` assembles the four
bytes into a `long`. -/
def toSigned32 (n : Nat) : Int :=
  if n % 4294967296 < 2147483648 then (n % 4294967296 : Int)
  else (n % 4294967296 : Int) - 4294967296

/-- `marshallByte`: `th.writeByte(data)` stores the argument as one
`unsigned char`, i.e. its value modulo 256. -/
def marshallByte (v : Int) : List Nat :=
  [(v % 256).toNat]

/-- `unmarshallByte`: reads one `unsigned char` from the stream and
returns it as a (signed) `char`.  Reading past the end of the buffer is
out of bounds in the C code and never exercised by the claims; the model
returns byte 0 there. -/
def unmarshallByte (s : List Nat) : Int × List Nat :=
  (toSigned8 (s.headD 0 % 256), s.tail)

/-- `marshallShort`: writes the 16-bit value big-endian, high byte first
(`b1 = (data & 0xFF00) >> 8`, `b2 = data & 0x00FF` on the argument
truncated to `short`). -/
def marshallShort (v : Int) : List Nat :=
  let e := (v % 65536).toNat
  [e / 256, e % 256]

/-- `unmarshallShort`: reads two bytes, most significant first, and
returns `(b1 << 8) | (b2 & 0xFF)` converted to `short`. -/
def unmarshallShort (s : List Nat) : Int × List Nat :=
  let b1 := s.headD 0 % 256
  let s1 := s.tail
  let b2 := s1.headD 0 % 256
  (toSigned16 (b1 * 256 + b2), s1.tail)

/-- `marshallLong`: writes the 32-bit value big-endian, most significant
byte first (`b1 = (data & 0xFF000000) >> 24`, ..., `b4 = data & 0xFF`). -/
def marshallLong (v : Int) : List Nat :=
  let e := (v % 4294967296).toNat
  [e / 16777216, e / 65536 % 256, e / 256 % 256, e % 256]

/-- `unmarshallLong`: reads four bytes, most significant first, and
returns `(b1 << 24) | (b2 << 16) | (b3 << 8) | b4` as a signed 32-bit
`long`. -/
def unmarshallLong (s : List Nat) : Int × List Nat :=
  let b1 := s.headD 0 % 256
  let s1 := s.tail
  let b2 := s1.headD 0 % 256
  let s2 := s1.tail
  let b3 := s2.headD 0 % 256
  let s3 := s2.tail
  let b4 := s3.headD 0 % 256
  (toSigned32 (b1 * 16777216 + b2 * 65536 + b3 * 256 + b4), s3.tail)

/-- `marshallString(th, data, maxSize)`: clamps the length to `maxSize`
when `maxSize` is positive, writes the (possibly clamped) length as a
2-byte short, then the raw bytes with no terminator. -/
def marshallString (data : List Nat) (maxSize : Int) : List Nat :=
  let len : Int :=
    if maxSize > 0 ∧ (data.length : Int) > maxSize then maxSize
    else (data.length : Int)
  marshallShort len ++ data.take len.toNat

/-- `unmarshallCString(th, data, maxSize)`: reads the 2-byte length,
copies at most `maxSize - 1` bytes into the caller's buffer (which the C
code then null-terminates), and advances the cursor by `len - copylen` so
the whole on-disk field is consumed.  The model returns the copied bytes
and the remaining stream.  A negative `copylen` makes the C `memcpy`
undefined; the model copies nothing in that case. -/
def unmarshallCString (s : List Nat) (maxSize : Int) : List Nat × List Nat :=
  let p := unmarshallShort s
  let len := p.1
  let copylen : Int := if len ≥ maxSize ∧ maxSize > 0 then maxSize - 1 else len
  let data := p.2.take copylen.toNat
  let s2 := (p.2.drop copylen.toNat).drop (len - copylen).toNat
  (data, s2)

/-- `unmarshallString(th, maxSize)`: returns the empty string immediately
when `maxSize <= 0` (before reading anything); otherwise allocates a
`maxSize` buffer and delegates to `unmarshallCString`. -/
def unmarshallString (s : List Nat) (maxSize : Int) : List Nat × List Nat :=
  if maxSize ≤ 0 then ([], s) else unmarshallCString s maxSize

/-! ### Helper lemmas for the fixed-width codecs -/

theorem unmarshallShort_marshallShort (v : Int) (rest : List Nat) :
    unmarshallShort (marshallShort v ++ rest) =
      (toSigned16 (v % 65536).toNat, rest) := by
  simp only [marshallShort, unmarshallShort, List.cons_append, List.nil_append,
    List.headD_cons, List.tail_cons]
  have hb : (v % 65536).toNat < 65536 := by omega
  have h : (v % 65536).toNat / 256 % 256 * 256 +
      (v % 65536).toNat % 256 % 256 = (v % 65536).toNat := by omega
  rw [h]

theorem unmarshallLong_marshallLong (v : Int) (rest : List Nat) :
    unmarshallLong (marshallLong v ++ rest) =
      (toSigned32 (v % 4294967296).toNat, rest) := by
  simp only [marshallLong, unmarshallLong, List.cons_append, List.nil_append,
    List.headD_cons, List.tail_cons]
  have hb : (v % 4294967296).toNat < 4294967296 := by omega
  have h : (v % 4294967296).toNat / 16777216 % 256 * 16777216 +
      (v % 4294967296).toNat / 65536 % 256 % 256 * 65536 +
      (v % 4294967296).toNat / 256 % 256 % 256 * 256 +
      (v % 4294967296).toNat % 256 % 256 = (v % 4294967296).toNat := by
    omega
  rw [h]

theorem toSigned16_emod_of_range (v : Int) (h1 : -32768 ≤ v) (h2 : v ≤ 32767) :
    toSigned16 (v % 65536).toNat = v := by
  have h0 : 0 ≤ v % 65536 := Int.emod_nonneg v (by norm_num)
  have h1' : v % 65536 < 65536 := Int.emod_lt_of_pos v (by norm_num)
  unfold toSigned16
  split <;> omega

theorem toSigned32_emod_of_range (v : Int) (h1 : -2147483648 ≤ v)
    (h2 : v ≤ 2147483647) :
    toSigned32 (v % 4294967296).toNat = v := by
  have h0 : 0 ≤ v % 4294967296 := Int.emod_nonneg v (by norm_num)
  have h1' : v % 4294967296 < 4294967296 := Int.emod_lt_of_pos v (by norm_num)
  unfold toSigned32
  split <;> omega

/-- C4: `unmarshallShort ∘ marshallShort` and `unmarshallLong ∘
marshallLong` are the identity on the signed 16-bit and signed 32-bit
ranges; out-of-range values truncate to the width's modulus
(reinterpreted two's-complement); and the emitted bytes are big-endian:
recomposing them most-significant-first recovers the value modulo the
width, independent of any host byte order (the codec never reinterprets
memory). -/
theorem marshall_roundtrip (v w : Int) (rest : List Nat) :
    ((-32768 ≤ v ∧ v ≤ 32767) →
        unmarshallShort (marshallShort v ++ rest) = (v, rest)) ∧
    ((-2147483648 ≤ w ∧ w ≤ 2147483647) →
        unmarshallLong (marshallLong w ++ rest) = (w, rest)) ∧
    (unmarshallShort (marshallShort v ++ rest)).1 =
      toSigned16 (v % 65536).toNat ∧
    (unmarshallLong (marshallLong w ++ rest)).1 =
      toSigned32 (w % 4294967296).toNat ∧
    (marshallShort v).length = 2 ∧
    (marshallShort v).getD 0 0 * 256 + (marshallShort v).getD 1 0 =
      (v % 65536).toNat ∧
    (marshallLong w).length = 4 ∧
    (marshallLong w).getD 0 0 * 16777216 + (marshallLong w).getD 1 0 * 65536 +
        (marshallLong w).getD 2 0 * 256 + (marshallLong w).getD 3 0 =
      (w % 4294967296).toNat := by
  refine ⟨?_, ?_, ?_, ?_, ?_, ?_, ?_, ?_⟩
  · rintro ⟨h1, h2⟩
    rw [unmarshallShort_marshallShort, toSigned16_emod_of_range v h1 h2]
  · rintro ⟨h1, h2⟩
    rw [unmarshallLong_marshallLong, toSigned32_emod_of_range w h1 h2]
  · rw [unmarshallShort_marshallShort]
  · rw [unmarshallLong_marshallLong]
  · rfl
  · simp only [marshallShort, List.getD_cons_zero, List.getD_cons_succ]
    omega
  · rfl
  · simp only [marshallLong, List.getD_cons_zero, List.getD_cons_succ]
    omega

/-- Witness for C4 at `v = 513`, `w = -2`. -/
theorem marshall_roundtrip_witness :
    unmarshallShort (marshallShort 513 ++ [9]) = (513, [9]) ∧
    unmarshallLong (marshallLong (-2) ++ [7]) = (-2, [7]) :=
  ⟨(marshall_roundtrip 513 (-2) [9]).1 (by decide),
   (marshall_roundtrip 513 (-2) [7]).2.1 (by decide)⟩

/-- C10: with a non-positive `maxSize`, `unmarshallString` returns the
empty string before touching the stream: no length prefix is read and the
cursor does not move. -/
theorem unmarshallString_nonpos (s : List Nat) (maxSize : Int)
    (h : maxSize ≤ 0) : unmarshallString s maxSize = ([], s) := by
  unfold unmarshallString
  rw [if_pos h]

/-- Witness for C10 at `maxSize = 0` on a nonempty stream. -/
theorem unmarshallString_nonpos_witness :
    unmarshallString [1, 2, 3] 0 = ([], [1, 2, 3]) :=
  unmarshallString_nonpos [1, 2, 3] 0 (by decide)

/-! ### The record framework: `tag_read`, `tag_write`, `tag_missing`

Tag identifiers.  The enumeration lives in `tags.h`; its values are fixed
by the documentation block at the top of `tags.cc` (`TAG_VERSION` is a
placeholder preceding `TAG_YOU = 1`, the original tags run consecutively
to `TAG_GHOST = 7`, `TAG_LEVEL_ATTITUDE` was appended in 2001, and
`TAG_LOST_MONSTERS` after it, matching the ranges used by
`tag_set_expected`). -/

def TAG_VERSION : Int := 0

def TAG_YOU : Int := 1

def TAG_YOU_ITEMS : Int := 2

def TAG_YOU_DUNGEON : Int := 3

def TAG_LEVEL : Int := 4

def TAG_LEVEL_ITEMS : Int := 5

def TAG_LEVEL_MONSTERS : Int := 6

def TAG_GHOST : Int := 7

def TAG_LEVEL_ATTITUDE : Int := 8

def TAG_LOST_MONSTERS : Int := 9

/-- Outcome of a load-path routine: either a normal return carrying a
value, or a process abort (`end(-1)`) with a diagnostic message. -/
inductive ProcResult (α : Type) where
  | ret (val : α)
  | abort (msg : String)
deriving DecidableEq

/-- The tag IDs handled by the `switch` in `tag_read`; every other ID
falls through to the `default:` branch. -/
def isKnownTag (t : Int) : Bool :=
  t == TAG_YOU || t == TAG_YOU_ITEMS || t == TAG_YOU_DUNGEON ||
    t == TAG_LEVEL || t == TAG_LEVEL_ITEMS || t == TAG_LEVEL_MONSTERS ||
    t == TAG_LEVEL_ATTITUDE || t == TAG_GHOST || t == TAG_LOST_MONSTERS

/-- `tag_read(fp, minorVersion)`: reads the 6-byte record header
(2-byte tag ID, 4-byte payload length) with `read2`, which returns the
number of bytes actually available; a short read, a non-positive tag ID
or length, or a short payload read each return the sentinel 0.  On a
known tag the matching `tag_read_*` decoder runs on the buffered payload
and the tag ID is returned; the `default:` branch returns 0.  The domain
decoders only mutate game aggregates and never alter control flow, so
they are not modelled; `minorVersion` does not affect control flow
either. -/
def tag_read (stream : List Nat) : ProcResult Int :=
  if stream.length < 6 then ProcResult.ret 0
  else if (unmarshallShort (stream.take 6)).1 ≤ 0 ∨
      (unmarshallLong ((unmarshallShort (stream.take 6)).2)).1 ≤ 0 then
    ProcResult.ret 0
  else if ((stream.drop 6).length : Int) <
      (unmarshallLong ((unmarshallShort (stream.take 6)).2)).1 then
    ProcResult.ret 0
  else if isKnownTag (unmarshallShort (stream.take 6)).1 then
    ProcResult.ret (unmarshallShort (stream.take 6)).1
  else ProcResult.ret 0

/-- C2: `tag_read` returns the sentinel 0 — a normal return, not an
error or abort — whenever the 6-byte header cannot be fully read, the
decoded tag ID or payload length is non-positive, or fewer than the
declared payload bytes are available. -/
theorem tag_read_sentinel_zero (stream : List Nat)
    (h : stream.length < 6 ∨
      (unmarshallShort (stream.take 6)).1 ≤ 0 ∨
      (unmarshallLong ((unmarshallShort (stream.take 6)).2)).1 ≤ 0 ∨
      ((stream.drop 6).length : Int) <
        (unmarshallLong ((unmarshallShort (stream.take 6)).2)).1) :
    tag_read stream = ProcResult.ret 0 := by
  unfold tag_read
  split_ifs with h1 h2 h3 h4 <;> try rfl
  exfalso
  push_neg at h2
  rcases h with h | h | h | h <;> omega

/-- Witness for C2: the empty stream has no full header. -/
theorem tag_read_sentinel_zero_witness :
    tag_read [] = ProcResult.ret 0 :=
  tag_read_sentinel_zero [] (by decide)

/-- C1 counterexample: the stream `[0, 99, 0, 0, 0, 1, 42]` has a
well-formed header (tag ID 99 > 0, payload length 1 > 0) and a fully
readable 1-byte payload, and 99 matches no known record type — yet
`tag_read` returns the sentinel 0 normally instead of aborting. -/
theorem tag_read_unknown_counterexample :
    tag_read [0, 99, 0, 0, 0, 1, 42] = ProcResult.ret 0 := by decide

/-- C1 (amended): on a well-formed 6-byte header with positive tag ID
and length and a fully readable payload whose tag ID matches no known
record type, `tag_read` returns the sentinel 0 normally (as if no record
were found); it neither aborts nor skips-and-continues. -/
theorem tag_read_unknown_ret_zero (stream : List Nat)
    (h6 : 6 ≤ stream.length)
    (ht : 0 < (unmarshallShort (stream.take 6)).1)
    (hl : 0 < (unmarshallLong ((unmarshallShort (stream.take 6)).2)).1)
    (hp : (unmarshallLong ((unmarshallShort (stream.take 6)).2)).1 ≤
      ((stream.drop 6).length : Int))
    (hk : isKnownTag (unmarshallShort (stream.take 6)).1 = false) :
    tag_read stream = ProcResult.ret 0 := by
  unfold tag_read
  split_ifs with h1 h2 h3 h4 <;> try rfl
  rw [hk] at h4
  exact absurd h4 (by decide)

/-- Witness for the amended C1: tag ID 77, length 2, payload present. -/
theorem tag_read_unknown_ret_zero_witness :
    tag_read [0, 77, 0, 0, 0, 2, 5, 6] = ProcResult.ret 0 :=
  tag_read_unknown_ret_zero [0, 77, 0, 0, 0, 2, 5, 6]
    (by decide) (by decide) (by decide) (by decide) (by decide)

/-! ### `tag_write`: the header-splicing record writer -/

/-- A record under construction: `tagHeader`'s `tagID` and the byte
offset (number of payload bytes already marshalled into the scratch
buffer).  The `FILE*`-backed mode of `tagHeader` is not used by
`tag_write`, whose header object always points into `tagBuffer`. -/
structure TagHdr where
  tagID : Int
  offset : Nat
deriving DecidableEq

/-- Sequential `writeByte` calls starting at position `pos` of the
scratch buffer: each byte overwrites `buf[pos]`, `buf[pos+1]`, ...
(models both the `marshallShort`/`marshallLong` header splice at offset 0
and the restoring `memcpy`). -/
def storeBytesAt : List Nat → Nat → List Nat → List Nat
  | buf, _, [] => buf
  | buf, pos, b :: bs => storeBytesAt (buf.set pos b) (pos + 1) bs

/-- `tag_write(th, saveFile)`: returns the bytes written to the save
file together with the final scratch buffer and offset.  An empty record
(offset 0) writes nothing; `TAG_VERSION` writes the bare payload; any
other tag swaps the first 6 payload bytes out, marshals the 2-byte tag
ID and 4-byte length into the buffer start, writes those 6 bytes, copies
the saved bytes back, restores the offset, and writes the payload. -/
def tag_write (th : TagHdr) (buf : List Nat) : List Nat × List Nat × Nat :=
  if th.offset = 0 then ([], buf, th.offset)
  else if th.tagID ≠ TAG_VERSION then
    let swap := buf.take 6
    let tagSize := th.offset
    let buf1 := storeBytesAt buf 0 (marshallShort th.tagID ++ marshallLong (tagSize : Int))
    let headerOut := buf1.take 6
    let buf2 := storeBytesAt buf1 0 swap
    (headerOut ++ buf2.take tagSize, buf2, tagSize)
  else (buf.take th.offset, buf, th.offset)

theorem storeBytesAt_eq (bs : List Nat) : ∀ (buf : List Nat) (pos : Nat),
    pos + bs.length ≤ buf.length →
    storeBytesAt buf pos bs = buf.take pos ++ bs ++ buf.drop (pos + bs.length) := by
  induction bs with
  | nil =>
    intro buf pos h
    simp [storeBytesAt, List.take_append_drop]
  | cons b bs ih =>
    intro buf pos h
    simp only [List.length_cons] at h
    have hpos : pos < buf.length := by omega
    rw [storeBytesAt, ih (buf.set pos b) (pos + 1)
      (by rw [List.length_set]; omega)]
    rw [List.set_eq_take_cons_drop b hpos]
    have h1 : (buf.take pos ++ b :: buf.drop (pos + 1)).take (pos + 1) =
        buf.take pos ++ [b] := by
      have e1 : pos + 1 = (buf.take pos).length + 1 := by
        rw [List.length_take]; omega
      rw [e1, List.take_append]
      simp
    have h2 : (buf.take pos ++ b :: buf.drop (pos + 1)).drop (pos + 1 + bs.length) =
        buf.drop (pos + 1 + bs.length) := by
      have e2 : pos + 1 + bs.length = (buf.take pos).length + (1 + bs.length) := by
        rw [List.length_take]; omega
      rw [e2, List.drop_append, Nat.add_comm 1 bs.length, List.drop_succ_cons,
        List.drop_drop]
      congr 1
      omega
    have e3 : pos + (b :: bs).length = pos + 1 + bs.length := by
      simp only [List.length_cons]; omega
    rw [h1, h2, e3]
    simp [List.append_assoc]

/-- C3: `tag_write` writes nothing for an empty record (offset 0); for a
non-`TAG_VERSION` record with positive offset it writes exactly the
6-byte header (2-byte big-endian tag ID, then 4-byte big-endian payload
length) followed by the payload bytes as they were before the call, the
splice restoring both the first 6 buffer bytes and the offset; for
`TAG_VERSION` it writes only the payload, with no header.  The
hypotheses are the scratch-buffer invariant: the buffer (sized once to
the largest record, at least the 6-byte header) holds the whole
payload. -/
theorem tag_write_spec (tagID : Int) (off : Nat) (buf : List Nat)
    (hbuf : 6 ≤ buf.length) (hoff : off ≤ buf.length) :
    (off = 0 → tag_write ⟨tagID, off⟩ buf = ([], buf, 0)) ∧
    (0 < off → tagID ≠ TAG_VERSION →
      tag_write ⟨tagID, off⟩ buf =
        (marshallShort tagID ++ marshallLong (off : Int) ++ buf.take off,
          buf, off)) ∧
    (0 < off → tagID = TAG_VERSION →
      tag_write ⟨tagID, off⟩ buf = (buf.take off, buf, off)) := by
  have hsplice : ∀ (hd : List Nat), hd.length = 6 →
      storeBytesAt buf 0 hd = hd ++ buf.drop 6 := by
    intro hd hlen
    rw [storeBytesAt_eq hd buf 0 (by omega)]
    simp [hlen]
  refine ⟨?_, ?_, ?_⟩
  · intro h0
    dsimp only [tag_write]
    rw [if_pos h0, h0]
  · intro hpos hver
    dsimp only [tag_write]
    rw [if_neg (by omega : ¬ off = 0), if_pos hver]
    have hh : (marshallShort tagID ++ marshallLong (off : Int)).length = 6 := by
      simp [marshallShort, marshallLong]
    rw [hsplice _ hh]
    have htk6 : (buf.take 6).length = 6 := by
      rw [List.length_take]; omega
    have hres : storeBytesAt
        (marshallShort tagID ++ marshallLong (off : Int) ++ buf.drop 6) 0
        (buf.take 6) = buf := by
      rw [storeBytesAt_eq _ _ 0
        (by simp only [List.length_append, hh, htk6, List.length_drop]; omega)]
      rw [List.take_zero, List.nil_append, Nat.zero_add, htk6,
        show (6 : Nat) = (marshallShort tagID ++ marshallLong (off : Int)).length
          from hh.symm,
        List.drop_left, List.take_append_drop]
    have hhd : ((marshallShort tagID ++ marshallLong (off : Int)) ++
        buf.drop 6).take 6 =
        marshallShort tagID ++ marshallLong (off : Int) := by
      rw [show (6 : Nat) = (marshallShort tagID ++ marshallLong (off : Int)).length
          from hh.symm,
        List.take_left]
    rw [hres, hhd, List.append_assoc]
  · intro hpos hver
    dsimp only [tag_write]
    rw [if_neg (by omega : ¬ off = 0), if_neg (by simp [hver])]

/-- Witness for C3: a 7-byte record with tag 4 in an 8-byte buffer. -/
theorem tag_write_spec_witness :
    tag_write ⟨4, 7⟩ [1, 2, 3, 4, 5, 6, 7, 8] =
      (marshallShort 4 ++ marshallLong 7 ++
        ([1, 2, 3, 4, 5, 6, 7, 8] : List Nat).take 7,
        [1, 2, 3, 4, 5, 6, 7, 8], 7) :=
  (tag_write_spec 4 7 [1, 2, 3, 4, 5, 6, 7, 8]
    (by decide) (by decide)).2.1 (by decide) (by decide)

/-! ### `tag_missing` and the level-attitude recovery

The enumerations `mon_attitude_type` and `beh_type`, the flag constant
`MF_CREATED_FRIENDLY`, the enchantment `ENCH_CHARM` and the sentinel
`MHITNOT` are declared in headers outside this source; their numeric
values never matter to the claims, so attitudes and new behaviours are
modelled as symbolic constructors, the two flag tests as the booleans
they produce, and `MHITNOT` as an opaque named constant. -/

/-- `mon_attitude_type`: the attitudes `tag_missing_level_attitude` can
observe or assign. -/
inductive Att where
  | hostile
  | neutral
  | friendly
deriving DecidableEq

/-- The new-scheme `beh_type` values assigned by
`tag_missing_level_attitude`. -/
inductive BehNew where
  | sleep
  | flee
  | seek
  | wander
deriving DecidableEq

/-- The "no foe" sentinel `MHITNOT` (declared outside `tags.cc`; its
numeric value is irrelevant to the claims). -/
def MHITNOT : Int := 201

/-- One `menv` slot as seen by `tag_missing_level_attitude`: the C code
reads `type`, `flags & MF_CREATED_FRIENDLY`, `has_ench(ENCH_CHARM)` and
the legacy numeric `behaviour` code, and writes `foe`, `attitude`,
`behaviour` and `foe_memory`.  The C code stores the new behaviour back
into the same `behaviour` field; since the new enumeration's numerals
live outside this source, the model records it in the separate field
`behaviourNew` and the legacy numeral becomes dead after the call. -/
structure MissMon where
  mtype : Int
  created_friendly : Bool
  has_ench_charm : Bool
  behaviour : Nat
  behaviourNew : BehNew
  attitude : Att
  foe : Int
  foe_memory : Int
deriving DecidableEq

/-- Placeholder slot for indexing with `List.getD`. -/
def mmDefault : MissMon :=
  ⟨0, false, false, 0, BehNew.wander, Att.hostile, 0, 0⟩

/-- The `switch (menv[i].behaviour)` of `tag_missing_level_attitude`:
given the incoming `new_beh` carry and `isFriendly`, returns the pair
(`new_beh`, `isFriendly`) after the switch.  Cases 7 (old enslaved,
without a charm enchantment) set `isFriendly`; only cases 0, 3, 10, 1
and 6 assign `new_beh` — case 7 and the `default` leave the carry
untouched. -/
def tmlaSwitch (nb : BehNew) (isF : Bool) (charm : Bool) (beh : Nat) :
    BehNew × Bool :=
  match beh with
  | 0 => (BehNew.sleep, isF)
  | 3 => (BehNew.flee, isF)
  | 10 => (BehNew.flee, isF)
  | 1 => (BehNew.seek, isF)
  | 6 => (BehNew.seek, isF)
  | 7 => (nb, if ¬ charm then true else isF)
  | _ => (nb, isF)

/-- The loop body of `tag_missing_level_attitude`, threading the
`new_beh` local (declared once, before the loop) through the monster
array.  Slots with `type < 0` are skipped untouched (`continue`). -/
def tmla_go : BehNew → List MissMon → List MissMon
  | _, [] => []
  | nb, m :: rest =>
    if m.mtype < 0 then m :: tmla_go nb rest
    else
      { m with foe := MHITNOT,
               attitude :=
                 if (tmlaSwitch nb m.created_friendly m.has_ench_charm
                     m.behaviour).2
                 then Att.friendly else Att.hostile,
               behaviourNew :=
                 (tmlaSwitch nb m.created_friendly m.has_ench_charm
                   m.behaviour).1,
               foe_memory := 0 } ::
        tmla_go
          (tmlaSwitch nb m.created_friendly m.has_ench_charm m.behaviour).1
          rest

/-- `tag_missing_level_attitude()`: recovery when the level-attitude
record is absent; `new_beh` starts at `BEH_WANDER`. -/
def tag_missing_level_attitude (mons : List MissMon) : List MissMon :=
  tmla_go BehNew.wander mons

/-- The legacy-code table actually applied by the switch: codes 0, 3/10
and 1/6 map to sleep, flee and seek; every other code (including 7)
maps to nothing and leaves the carry in place. -/
def behMapCode (c : Nat) : Option BehNew :=
  match c with
  | 0 => some BehNew.sleep
  | 3 => some BehNew.flee
  | 10 => some BehNew.flee
  | 1 => some BehNew.seek
  | 6 => some BehNew.seek
  | _ => none

/-- The value of the `new_beh` carry after scanning a prefix of the
monster table: the last mapped legacy code of a non-skipped slot, or
wander if none. -/
def lastMappedBeh (mons : List MissMon) : BehNew :=
  mons.foldl
    (fun nb m => if m.mtype < 0 then nb else (behMapCode m.behaviour).getD nb)
    BehNew.wander

theorem tmlaSwitch_fst (nb : BehNew) (isF charm : Bool) (beh : Nat) :
    (tmlaSwitch nb isF charm beh).1 = (behMapCode beh).getD nb := by
  unfold tmlaSwitch behMapCode
  split <;> first
    | rfl
    | (split <;> simp_all)

theorem tmlaSwitch_snd (nb : BehNew) (isF charm : Bool) (beh : Nat) :
    (tmlaSwitch nb isF charm beh).2 =
      (isF || (beh == 7 && ! charm)) := by
  unfold tmlaSwitch
  split <;> cases charm <;> cases isF <;> simp_all

theorem tmla_go_length : ∀ (nb : BehNew) (mons : List MissMon),
    (tmla_go nb mons).length = mons.length := by
  intro nb mons
  induction mons generalizing nb with
  | nil => rfl
  | cons m rest ih =>
    unfold tmla_go
    split <;> simp [ih]

theorem tmla_go_getD (mons : List MissMon) : ∀ (nb : BehNew) (i : Nat),
    i < mons.length → 0 ≤ (mons.getD i mmDefault).mtype →
    ((tmla_go nb mons).getD i mmDefault).foe = MHITNOT ∧
    ((tmla_go nb mons).getD i mmDefault).foe_memory = 0 ∧
    ((tmla_go nb mons).getD i mmDefault).attitude =
      (if (mons.getD i mmDefault).created_friendly ||
          ((mons.getD i mmDefault).behaviour == 7 &&
            ! (mons.getD i mmDefault).has_ench_charm)
        then Att.friendly else Att.hostile) ∧
    ((tmla_go nb mons).getD i mmDefault).behaviourNew =
      (mons.take (i + 1)).foldl
        (fun nb m =>
          if m.mtype < 0 then nb else (behMapCode m.behaviour).getD nb)
        nb := by
  induction mons with
  | nil =>
    intro nb i hi
    simp at hi
  | cons m rest ih =>
    intro nb i hi hty
    cases i with
    | zero =>
      simp only [List.getD_cons_zero] at hty ⊢
      unfold tmla_go
      rw [if_neg (by omega)]
      refine ⟨rfl, rfl, ?_, ?_⟩
      · simp only [List.getD_cons_zero, tmlaSwitch_snd]
      · simp only [List.getD_cons_zero, List.take_succ_cons, List.take_zero,
          List.foldl_cons, List.foldl_nil, tmlaSwitch_fst]
        rw [if_neg (by omega)]
    | succ i =>
      simp only [List.getD_cons_succ] at hty ⊢
      simp only [List.length_cons, Nat.succ_lt_succ_iff] at hi
      unfold tmla_go
      by_cases hm : m.mtype < 0
      · rw [if_pos hm]
        simp only [List.getD_cons_succ, List.take_succ_cons, List.foldl_cons]
        rw [if_pos hm]
        exact ih nb i hi hty
      · rw [if_neg hm]
        simp only [List.getD_cons_succ, List.take_succ_cons, List.foldl_cons]
        rw [if_neg hm, ← tmlaSwitch_fst nb m.created_friendly m.has_ench_charm
          m.behaviour]
        exact ih _ i hi hty

/-- C7 counterexample: two monsters, the first with legacy code 0
(mapped to sleep), the second with legacy code 7 and a charm
enchantment.  The claim's fixed table sends code 7 ("every other code")
to wander, independent of other monsters; the code instead leaves
`new_beh` — declared once, outside the loop — at the sleep value carried
over from the first monster. -/
theorem tag_missing_level_attitude_counterexample :
    ((tag_missing_level_attitude
        [⟨0, false, false, 0, BehNew.wander, Att.hostile, 0, 0⟩,
         ⟨0, false, true, 7, BehNew.wander, Att.hostile, 0, 0⟩]).getD 1
      mmDefault).behaviourNew ≠ BehNew.wander := by
  decide

/-- C7 (amended): the recovery routine processes every slot with
`type >= 0`, setting `foe` to `MHITNOT`, `foe_memory` to 0, and attitude
to friendly exactly when the monster carries the created-friendly flag
or has legacy code 7 without a charm enchantment.  The new behaviour is
given by the table 0 -> sleep, 3/10 -> flee, 1/6 -> seek; any other
code (including 7) leaves the behaviour at the value assigned for the
most recent earlier non-skipped monster with a mapped code — initially
wander — because the `new_beh` local is declared outside the loop. -/
theorem tag_missing_level_attitude_spec (mons : List MissMon) (i : Nat)
    (hi : i < mons.length)
    (hty : 0 ≤ (mons.getD i mmDefault).mtype) :
    (tag_missing_level_attitude mons).length = mons.length ∧
    ((tag_missing_level_attitude mons).getD i mmDefault).foe = MHITNOT ∧
    ((tag_missing_level_attitude mons).getD i mmDefault).foe_memory = 0 ∧
    ((tag_missing_level_attitude mons).getD i mmDefault).attitude =
      (if (mons.getD i mmDefault).created_friendly ||
          ((mons.getD i mmDefault).behaviour == 7 &&
            ! (mons.getD i mmDefault).has_ench_charm)
        then Att.friendly else Att.hostile) ∧
    ((tag_missing_level_attitude mons).getD i mmDefault).behaviourNew =
      lastMappedBeh (mons.take (i + 1)) := by
  obtain ⟨h1, h2, h3, h4⟩ := tmla_go_getD mons BehNew.wander i hi hty
  exact ⟨tmla_go_length BehNew.wander mons, h1, h2, h3, h4⟩

/-- Witness for the amended C7 at the counterexample's input, slot 1. -/
theorem tag_missing_level_attitude_spec_witness :
    ((tag_missing_level_attitude
        [⟨0, false, false, 0, BehNew.wander, Att.hostile, 0, 0⟩,
         ⟨0, false, true, 7, BehNew.wander, Att.hostile, 0, 0⟩]).getD 1
      mmDefault).foe = MHITNOT ∧
    ((tag_missing_level_attitude
        [⟨0, false, false, 0, BehNew.wander, Att.hostile, 0, 0⟩,
         ⟨0, false, true, 7, BehNew.wander, Att.hostile, 0, 0⟩]).getD 1
      mmDefault).behaviourNew =
      lastMappedBeh
        ([⟨0, false, false, 0, BehNew.wander, Att.hostile, 0, 0⟩,
          ⟨0, false, true, 7, BehNew.wander, Att.hostile, 0, 0⟩].take 2) := by
  obtain ⟨-, h1, -, -, h4⟩ := tag_missing_level_attitude_spec
    [⟨0, false, false, 0, BehNew.wander, Att.hostile, 0, 0⟩,
     ⟨0, false, true, 7, BehNew.wander, Att.hostile, 0, 0⟩] 1
    (by decide) (by decide)
  exact ⟨h1, h4⟩

/-- `tag_missing(tag, minorVersion)`: only `TAG_LEVEL_ATTITUDE` has a
recovery routine; every other tag hits the `default:` branch, which
prints a diagnostic via `perror` and aborts the process through
`end(-1)`.  The model carries the monster table the recovery routine
rewrites; `minorVersion` is unused in the C code. -/
def tag_missing (tag : Int) (mons : List MissMon) :
    ProcResult (List MissMon) :=
  if tag = TAG_LEVEL_ATTITUDE then
    ProcResult.ret (tag_missing_level_attitude mons)
  else
    ProcResult.abort "Tag %d is missing;  file is likely corrupt."

/-- C8: for every tag with no registered recovery routine (any tag other
than `TAG_LEVEL_ATTITUDE`), `tag_missing` aborts the load with the
diagnostic instead of returning normally. -/
theorem tag_missing_fatal (tag : Int) (mons : List MissMon)
    (h : tag ≠ TAG_LEVEL_ATTITUDE) :
    tag_missing tag mons =
      ProcResult.abort "Tag %d is missing;  file is likely corrupt." := by
  unfold tag_missing
  rw [if_neg h]

/-- Witness for C8 at `TAG_GHOST` (tag 7, no recovery routine). -/
theorem tag_missing_fatal_witness :
    tag_missing TAG_GHOST [] =
      ProcResult.abort "Tag %d is missing;  file is likely corrupt." :=
  tag_missing_fatal TAG_GHOST [] (by decide)

/-! ### The string clamp (C5) -/

/-- C5 (amended): for `0 < maxSize <= 32767` and a string longer than
`maxSize`, marshalling with `marshallString` and unmarshalling with the
same `maxSize` yields exactly the first `maxSize - 1` bytes (the C code
then appends the terminator), and the cursor ends exactly past the bytes
the writer produced, so a following field (`rest`) is read in sync.  The
bound 32767 is forced by the 2-byte signed length prefix: `marshallShort`
cannot represent a larger clamped length. -/
theorem unmarshallCString_clamp (s : List Nat) (maxSize : Int)
    (rest : List Nat) (h1 : 0 < maxSize) (h2 : maxSize ≤ 32767)
    (h3 : maxSize < (s.length : Int)) :
    unmarshallCString (marshallString s maxSize ++ rest) maxSize =
      (s.take (maxSize.toNat - 1), rest) := by
  have hm1 : 1 ≤ maxSize.toNat := by omega
  have hms : maxSize.toNat ≤ s.length := by omega
  have hmarsh : marshallString s maxSize =
      marshallShort maxSize ++ s.take maxSize.toNat := by
    unfold marshallString
    rw [if_pos ⟨h1, h3⟩]
  rw [hmarsh, List.append_assoc]
  simp only [unmarshallCString]
  rw [unmarshallShort_marshallShort,
    toSigned16_emod_of_range maxSize (by omega) (by omega)]
  simp only
  rw [if_pos ⟨le_refl maxSize, h1⟩]
  have htklen : (s.take maxSize.toNat).length = maxSize.toNat := by
    rw [List.length_take]
    omega
  have e1 : (maxSize - 1).toNat = maxSize.toNat - 1 := by omega
  have e2 : (maxSize - (maxSize - 1)).toNat = 1 := by omega
  rw [e1, e2]
  simp only [Prod.mk.injEq]
  constructor
  · rw [List.take_append_of_le_length (by omega), List.take_take]
    congr 1
    omega
  · rw [List.drop_append_of_le_length (by omega), List.drop_take]
    have e3 : maxSize.toNat - (maxSize.toNat - 1) = 1 := by omega
    rw [e3]
    have hlen1 : ((s.drop (maxSize.toNat - 1)).take 1).length = 1 := by
      rw [List.length_take, List.length_drop]
      omega
    have hdrop1 : ∀ (l : List Nat), l.length = 1 → (l ++ rest).drop 1 = rest := by
      intro l hl
      match l, hl with
      | [a], _ => simp
    exact hdrop1 _ hlen1

/-- C5 counterexample: with `maxSize = 32768` and a 32769-byte string,
the clamped length 32768 is written through `marshallShort`, whose
signed 16-bit decode returns -32768; `unmarshallCString` then copies
nothing (in the C code the negative `copylen` is passed to `memcpy`) and
advances the cursor zero bytes, so the result is neither the first
`maxSize - 1` bytes nor in sync with the 32770 bytes written. -/
theorem unmarshallCString_clamp_counterexample :
    unmarshallCString (marshallString (List.replicate 32769 65) 32768)
        32768 ≠
      ((List.replicate 32769 65).take 32767, ([] : List Nat)) := by
  have h1 : marshallString (List.replicate 32769 65) 32768 =
      marshallShort 32768 ++ List.replicate 32768 65 := by
    unfold marshallString
    rw [if_pos ⟨by norm_num, by rw [List.length_replicate]; norm_num⟩]
    dsimp only
    rw [show ((32768 : Int)).toNat = 32768 from rfl]
    rw [List.take_replicate]
    rw [show (32768 : Nat) ⊓ 32769 = 32768 from by norm_num [Nat.min_def]]
  have h2 : unmarshallCString
      (marshallShort 32768 ++ List.replicate 32768 65) 32768 =
      ([], List.replicate 32768 65) := by
    simp only [unmarshallCString]
    rw [unmarshallShort_marshallShort,
      show toSigned16 ((32768 : Int) % 65536).toNat = -32768 from by decide]
    rw [if_neg (by decide : ¬((-32768 : Int) ≥ 32768 ∧ (32768 : Int) > 0))]
    rw [show ((-32768 : Int)).toNat = 0 from by decide,
      show ((-32768 : Int) - (-32768)).toNat = 0 from by decide]
    simp only [List.take_zero, List.drop_zero]
  rw [h1, h2]
  intro h
  have h5 := congrArg Prod.snd h
  simp only [Prod.snd] at h5
  rw [List.replicate_eq_nil_iff] at h5
  norm_num at h5

/-- Witness for the amended C5: a 5-byte string clamped at
`maxSize = 3`, followed by one more field byte that stays in sync. -/
theorem unmarshallCString_clamp_witness :
    unmarshallCString (marshallString [65, 66, 67, 68, 69] 3 ++ [200]) 3 =
      (([65, 66, 67, 68, 69] : List Nat).take ((3 : Int).toNat - 1), [200]) :=
  unmarshallCString_clamp [65, 66, 67, 68, 69] 3 [200]
    (by decide) (by decide) (by decide)

/-! ### The run-length grid codec (C6)

`run_length_encode`/`run_length_decode` are templates over an element
marshaller; per the claim they are instantiated at one-byte values
(`marshallByte` with an unsigned-char-valued grid), so a pair on the
wire is the two bytes (run length, cell value).  The nested loops scan
`y` outermost and `x` innermost reading `g[x][y]`, i.e. cell `(x, y)` is
visited at linear offset `y * width + x`; `gridCells` is that traversal,
and the decoder fills the same offsets (`x = offset % width`,
`y = offset / width`). -/

/-- The encoder's loop state after the first visited cell: `last` is the
current run's value, `nlast` its length so far.  A pair is flushed when
the value changes or the run length has reached 255, and once more after
the last cell. -/
def rleAux : List Nat → Nat → Nat → List Nat
  | [], last, nlast => [nlast % 256, last % 256]
  | c :: rest, last, nlast =>
    if c = last ∧ nlast < 255 then rleAux rest last (nlast + 1)
    else nlast % 256 :: last % 256 :: rleAux rest c 1

/-- The grid linearised in the encoder's traversal order. -/
def gridCells (g : Nat → Nat → Nat) (width height : Nat) : List Nat :=
  (List.range (height * width)).map fun i => g (i % width) (i / width)

/-- `run_length_encode`: `last = 0, nlast = 0` before the loops; the
first cell sets `last` and bumps `nlast` to 1, so an empty grid flushes
the initial `(0, 0)` pair and a nonempty grid enters `rleAux` with its
first cell as the open run. -/
def run_length_encode (g : Nat → Nat → Nat) (width height : Nat) :
    List Nat :=
  match gridCells g width height with
  | [] => [0, 0]
  | c :: rest => rleAux rest c 1

/-- `run_length_decode`'s loop: while `offset < end`, read a run length
and a value and fill that many consecutive cells (the C code would keep
filling past `end` if a run overshoots, and reads stale buffer bytes if
the stream is exhausted early; neither happens on an encoder-produced
stream). -/
def rldAux : List Nat → Nat → Nat → List Nat
  | run :: v :: rest, endN, offset =>
    if offset < endN then
      List.replicate (run % 256) (v % 256) ++
        rldAux rest endN (offset + run % 256)
    else []
  | _, _, _ => []

/-- `run_length_decode` over a `width × height` grid, returning the
cells in traversal order (offset `y * width + x`). -/
def run_length_decode (stream : List Nat) (width height : Nat) : List Nat :=
  rldAux stream (width * height) 0

theorem rldAux_rleAux (cells : List Nat) : ∀ (last nlast offset endN : Nat),
    (∀ c ∈ cells, c < 256) → last < 256 → 1 ≤ nlast → nlast ≤ 255 →
    offset + nlast + cells.length = endN →
    rldAux (rleAux cells last nlast) endN offset =
      List.replicate nlast last ++ cells := by
  induction cells with
  | nil =>
    intro last nlast offset endN hv hl h1 h255 hend
    simp only [List.length_nil, Nat.add_zero] at hend
    unfold rleAux rldAux
    rw [if_pos (by omega)]
    have e1 : nlast % 256 % 256 = nlast := by omega
    have e2 : last % 256 % 256 = last := by omega
    rw [e1, e2, show rldAux [] endN (offset + nlast) = [] from rfl]
  | cons c rest ih =>
    intro last nlast offset endN hv hl h1 h255 hend
    simp only [List.length_cons] at hend
    unfold rleAux
    by_cases hc : c = last ∧ nlast < 255
    · rw [if_pos hc]
      rw [ih last (nlast + 1) offset endN
        (fun x hx => hv x (List.mem_cons_of_mem _ hx)) hl
        (by omega) (by omega) (by omega)]
      obtain ⟨hc1, _⟩ := hc
      rw [hc1, List.replicate_succ']
      simp [List.append_assoc]
    · rw [if_neg hc]
      show rldAux (nlast % 256 :: last % 256 :: rleAux rest c 1) endN offset = _
      unfold rldAux
      rw [if_pos (by omega)]
      have e1 : nlast % 256 % 256 = nlast := by omega
      have e2 : last % 256 % 256 = last := by omega
      rw [e1, e2]
      rw [ih c 1 (offset + nlast) endN
        (fun x hx => hv x (List.mem_cons_of_mem _ hx))
        (hv c (List.mem_cons_self c rest)) (le_refl 1) (by omega) (by omega)]
      simp

theorem run_length_decode_encode (g : Nat → Nat → Nat) (width height : Nat)
    (hw : 1 ≤ width) (hh : 1 ≤ height)
    (hv : ∀ x y, x < width → y < height → g x y < 256) :
    run_length_decode (run_length_encode g width height) width height =
      gridCells g width height := by
  have hlen : (gridCells g width height).length = height * width := by
    simp [gridCells]
  have hcv : ∀ c ∈ gridCells g width height, c < 256 := by
    intro c hc
    simp only [gridCells, List.mem_map, List.mem_range] at hc
    obtain ⟨i, hi, rfl⟩ := hc
    exact hv _ _ (Nat.mod_lt i (by omega))
      ((Nat.div_lt_iff_lt_mul (by omega)).2 hi)
  cases hcells : gridCells g width height with
  | nil =>
    rw [hcells] at hlen
    simp at hlen
    exfalso
    omega
  | cons c rest =>
    have h2 : rest.length + 1 = height * width := by
      rw [hcells] at hlen
      simpa using hlen
    unfold run_length_encode run_length_decode
    rw [hcells, Nat.mul_comm width height]
    show rldAux (rleAux rest c 1) (height * width) 0 = c :: rest
    rw [rldAux_rleAux rest c 1 0 (height * width)
      (fun x hx => hcv x (hcells ▸ List.mem_cons_of_mem _ hx))
      (hcv c (hcells ▸ List.mem_cons_self c rest)) (le_refl 1)
      (by omega) (by omega)]
    simp

/-- C6: decoding an encoded `width × height` grid (byte-valued cells,
both dimensions at least 1) recovers every cell: the decoded stream read
at the cell's traversal offset `y * width + x` equals `g x y`.  The
grid's shape is arbitrary, so this covers all-equal grids, all-distinct
grids and runs of exactly 255 equal cells. -/
theorem rle_roundtrip (g : Nat → Nat → Nat) (width height : Nat)
    (hw : 1 ≤ width) (hh : 1 ≤ height)
    (hv : ∀ x y, x < width → y < height → g x y < 256)
    (x y : Nat) (hx : x < width) (hy : y < height) :
    (run_length_decode (run_length_encode g width height)
        width height).getD (y * width + x) 0 = g x y := by
  rw [run_length_decode_encode g width height hw hh hv]
  have hidx : y * width + x < height * width := by
    have h3 : (y + 1) * width ≤ height * width :=
      Nat.mul_le_mul_right width hy
    have h4 : y * width + x < (y + 1) * width := by
      have : (y + 1) * width = y * width + width := by ring
      omega
    omega
  have hlt : y * width + x < (gridCells g width height).length := by
    rw [gridCells]
    simpa using hidx
  rw [List.getD_eq_getElem _ _ hlt]
  simp only [gridCells, List.getElem_map, List.getElem_range]
  congr 1
  · rw [Nat.add_comm, Nat.add_mul_mod_self_right, Nat.mod_eq_of_lt hx]
  · rw [Nat.add_comm, Nat.add_mul_div_right _ _ (by omega : 0 < width),
      Nat.div_eq_of_lt hx, Nat.zero_add]

/-- Witness for C6: a 3×2 grid with a value change, read back at cell
`(2, 1)`. -/
theorem rle_roundtrip_witness :
    (run_length_decode
        (run_length_encode (fun x y => if x + y ≤ 1 then 9 else 200) 3 2)
        3 2).getD (1 * 3 + 2) 0 =
      (fun x y : Nat => if x + y ≤ 1 then 9 else 200) 2 1 :=
  rle_roundtrip (fun x y => if x + y ≤ 1 then 9 else 200) 3 2
    (by decide) (by decide)
    (by intro x y hx hy; dsimp only; split <;> decide)
    2 1 (by decide) (by decide)

/-! ### Ghost decoding (C9) -/

/-- Modelled from the spec: the bounded length of the ghost stat array
(`NUM_GHOST_VALUES`, an enumerator declared in a header outside this
source; "a fixed-size named-value array ... of bounded length").  Its
numeric value is immaterial to the claims; 7 is used as a concrete
stand-in. -/
def NUM_GHOST_VALUES : Nat := 7

/-- A `ghost_demon`: name plus fixed-size stat array. -/
structure GhostDemon where
  name : List Nat
  values : List Int
deriving DecidableEq

/-- The value-filling loop `for (i = 0; i < count_c; i++)
ghost.values[i] = unmarshallShort(th)`: reads `n` shorts, storing them
at indices `i, i+1, ...`. -/
def ghostLoop : Nat → Nat → List Int → List Nat → List Int × List Nat
  | 0, _, vals, s => (vals, s)
  | n + 1, i, vals, s =>
    ghostLoop n (i + 1) (vals.set i (unmarshallShort s).1)
      (unmarshallShort s).2

/-- `unmarshallGhost(th)`: reads the name (clamped at 20), then the
value-count byte (returned by `unmarshallByte` as a signed `char`),
clamps it to `NUM_GHOST_VALUES` from above, and fills that many slots of
the freshly constructed ghost, whose constructor defaults are the
caller-supplied `init` here. -/
def unmarshallGhost (init : List Int) (stream : List Nat) :
    GhostDemon × List Nat :=
  let pn := unmarshallString stream 20
  let cb := unmarshallByte pn.2
  let count_c : Int :=
    if cb.1 > (NUM_GHOST_VALUES : Int) then (NUM_GHOST_VALUES : Int) else cb.1
  let pv := ghostLoop count_c.toNat 0 init cb.2
  (⟨pn.1, pv.1⟩, pv.2)

/-- The stored value-count byte of a ghost record, as the signed `char`
the decoder sees. -/
def ghostCountByte (stream : List Nat) : Int :=
  (unmarshallByte (unmarshallString stream 20).2).1

theorem ghostLoop_length : ∀ (n i : Nat) (vals : List Int) (s : List Nat),
    (ghostLoop n i vals s).1.length = vals.length := by
  intro n
  induction n with
  | zero => intro i vals s; rfl
  | succ n ih =>
    intro i vals s
    unfold ghostLoop
    rw [ih, List.length_set]

theorem ghostLoop_getD_ge : ∀ (n i : Nat) (vals : List Int) (s : List Nat)
    (j : Nat), i + n ≤ j →
    (ghostLoop n i vals s).1.getD j 0 = vals.getD j 0 := by
  intro n
  induction n with
  | zero => intro i vals s j hj; rfl
  | succ n ih =>
    intro i vals s j hj
    unfold ghostLoop
    rw [ih (i + 1) _ _ j (by omega)]
    unfold List.getD
    rw [List.get?_set_ne _ _ (by omega)]

/-- C9: for every stream and every pre-existing default array `init` of
the proper size, the fill loop of `unmarshallGhost` runs at most
`NUM_GHOST_VALUES` times (the stored count is clamped from above, so no
value is ever stored out of bounds and the array keeps its size), and
every slot at or beyond the effective count keeps its pre-existing
default value. -/
theorem unmarshallGhost_safe (init : List Int) (stream : List Nat)
    (hlen : init.length = NUM_GHOST_VALUES) :
    ((if ghostCountByte stream > (NUM_GHOST_VALUES : Int)
        then (NUM_GHOST_VALUES : Int) else ghostCountByte stream).toNat ≤
      NUM_GHOST_VALUES) ∧
    (unmarshallGhost init stream).1.values.length = NUM_GHOST_VALUES ∧
    (∀ j : Nat,
      (if ghostCountByte stream > (NUM_GHOST_VALUES : Int)
        then (NUM_GHOST_VALUES : Int) else ghostCountByte stream).toNat ≤ j →
      j < NUM_GHOST_VALUES →
      (unmarshallGhost init stream).1.values.getD j 0 = init.getD j 0) := by
  refine ⟨?_, ?_, ?_⟩
  · split <;> omega
  · show (ghostLoop _ 0 init _).1.length = NUM_GHOST_VALUES
    rw [ghostLoop_length, hlen]
  · intro j hj hjn
    have hgc : ghostCountByte stream =
        (unmarshallByte (unmarshallString stream 20).2).1 := rfl
    rw [hgc] at hj
    show (ghostLoop _ 0 init _).1.getD j 0 = init.getD j 0
    exact ghostLoop_getD_ge _ 0 init _ j (by omega)

/-- Witness for C9: a record whose count byte 200 reads as the signed
char -56, so the loop runs zero times and all seven slots keep their
defaults. -/
theorem unmarshallGhost_safe_witness :
    (unmarshallGhost [3, 1, 4, 1, 5, 9, 2]
        (marshallString [71] 20 ++ [200])).1.values.getD 6 0 =
      ([3, 1, 4, 1, 5, 9, 2] : List Int).getD 6 0 :=
  (unmarshallGhost_safe [3, 1, 4, 1, 5, 9, 2]
      (marshallString [71] 20 ++ [200]) (by decide)).2.2 6
    (by decide) (by decide)
